import Mathlib

/-!
Verification of the graph-building core of `build_db.py`.

The program ingests newline-delimited JSON lexical entries and builds an
etymology graph in SQLite in two passes: pass 1 upserts one node per entry
(keyed by a canonical node id), pass 2 re-reads the corpus and resolves
textual cross-references into edges.

The embedding below models JSON values (and Python objects obtained from
`json.loads`, where JSON `null` and Python `None` coincide) as the inductive
type `JVal`; Python dictionaries are association lists with first-key-wins
lookup (keys produced by `json.loads` are unique).  Machine-level details
that no claim touches are noted at their definition sites.
-/

namespace BuildDb

/-- A JSON value / Python object produced by `json.loads`.
Numbers are modelled as integers: the fields the program inspects
(`etymology_number`) are integer-valued per the data model. -/
inductive JVal where
  | jnull : JVal
  | jbool : Bool → JVal
  | jnum : Int → JVal
  | jstr : String → JVal
  | jarr : List JVal → JVal
  | jobj : List (String × JVal) → JVal

mutual

/-- Structural boolean equality on `JVal` (decidable equality is derived
from it below). -/
def JVal.beq : JVal → JVal → Bool
  | JVal.jnull, JVal.jnull => true
  | JVal.jbool x, JVal.jbool y => x == y
  | JVal.jnum x, JVal.jnum y => x == y
  | JVal.jstr x, JVal.jstr y => x == y
  | JVal.jarr x, JVal.jarr y => JVal.beqList x y
  | JVal.jobj x, JVal.jobj y => JVal.beqObj x y
  | _, _ => false

/-- Pointwise `JVal.beq` on lists. -/
def JVal.beqList : List JVal → List JVal → Bool
  | [], [] => true
  | x :: xs, y :: ys => JVal.beq x y && JVal.beqList xs ys
  | _, _ => false

/-- Pointwise `JVal.beq` on association lists. -/
def JVal.beqObj : List (String × JVal) → List (String × JVal) → Bool
  | [], [] => true
  | (k, v) :: xs, (k', v') :: ys => k == k' && JVal.beq v v' && JVal.beqObj xs ys
  | _, _ => false

end

mutual

def JVal.eq_of_beq : ∀ (a b : JVal), JVal.beq a b = true → a = b
  | JVal.jnull, JVal.jnull, _ => rfl
  | JVal.jbool x, JVal.jbool y, h => by
      have hxy : x = y := by simpa [JVal.beq] using h
      rw [hxy]
  | JVal.jnum x, JVal.jnum y, h => by
      have hxy : x = y := by simpa [JVal.beq] using h
      rw [hxy]
  | JVal.jstr x, JVal.jstr y, h => by
      have hxy : x = y := by simpa [JVal.beq] using h
      rw [hxy]
  | JVal.jarr x, JVal.jarr y, h => by
      have hxy : x = y := JVal.eqList_of_beq x y (by simpa [JVal.beq] using h)
      rw [hxy]
  | JVal.jobj x, JVal.jobj y, h => by
      have hxy : x = y := JVal.eqObj_of_beq x y (by simpa [JVal.beq] using h)
      rw [hxy]

def JVal.eqList_of_beq : ∀ (a b : List JVal), JVal.beqList a b = true → a = b
  | [], [], _ => rfl
  | x :: xs, y :: ys, h => by
      have h' : JVal.beq x y = true ∧ JVal.beqList xs ys = true := by
        simpa [JVal.beqList, Bool.and_eq_true] using h
      rw [JVal.eq_of_beq x y h'.1, JVal.eqList_of_beq xs ys h'.2]

def JVal.eqObj_of_beq : ∀ (a b : List (String × JVal)), JVal.beqObj a b = true → a = b
  | [], [], _ => rfl
  | (k, v) :: xs, (k', v') :: ys, h => by
      have h' : (k == k') = true ∧ JVal.beq v v' = true ∧ JVal.beqObj xs ys = true := by
        simpa [JVal.beqObj, Bool.and_eq_true, and_assoc] using h
      have hk : k = k' := by simpa using h'.1
      rw [hk, JVal.eq_of_beq v v' h'.2.1, JVal.eqObj_of_beq xs ys h'.2.2]

end

mutual

def JVal.beq_refl : ∀ (a : JVal), JVal.beq a a = true
  | JVal.jnull => rfl
  | JVal.jbool x => by simp [JVal.beq]
  | JVal.jnum x => by simp [JVal.beq]
  | JVal.jstr x => by simp [JVal.beq]
  | JVal.jarr x => by simpa [JVal.beq] using JVal.beqList_refl x
  | JVal.jobj x => by simpa [JVal.beq] using JVal.beqObj_refl x

def JVal.beqList_refl : ∀ (a : List JVal), JVal.beqList a a = true
  | [] => rfl
  | x :: xs => by
      simp [JVal.beqList, Bool.and_eq_true]
      exact ⟨JVal.beq_refl x, JVal.beqList_refl xs⟩

def JVal.beqObj_refl : ∀ (a : List (String × JVal)), JVal.beqObj a a = true
  | [] => rfl
  | (k, v) :: xs => by
      simp [JVal.beqObj, Bool.and_eq_true]
      exact ⟨JVal.beq_refl v, JVal.beqObj_refl xs⟩

end

instance : DecidableEq JVal := fun a b =>
  if h : JVal.beq a b = true then isTrue (JVal.eq_of_beq a b h)
  else isFalse (fun he => h (he ▸ JVal.beq_refl a))

/-- A parsed JSON object (Python dict), as an association list. -/
abbrev Obj := List (String × JVal)

/-- Python `dict.get`: first binding of the key, `none` when absent. -/
def jget : Obj → String → Option JVal
  | [], _ => none
  | (k', v) :: rest, k => if k' = k then some v else jget rest k

/-- Python truthiness of a value: `None`, `False`, `0`, `""`, `[]`, and
an empty dict are falsy, everything else truthy. -/
def JVal.truthy : JVal → Bool
  | JVal.jnull => false
  | JVal.jbool b => b
  | JVal.jnum n => decide (n ≠ 0)
  | JVal.jstr s => decide (s ≠ "")
  | JVal.jarr l => !l.isEmpty
  | JVal.jobj l => !l.isEmpty

/-- Python `a or b`: `a` when truthy, otherwise `b`. -/
def pyOrV (a b : JVal) : JVal := if a.truthy then a else b

/-- Python attribute access `entry.get(k)` as a `JVal`
(`None` for a missing key, so missing and JSON `null` coincide). -/
def getv (e : Obj) (k : String) : JVal := (jget e k).getD JVal.jnull

/-- Classify an optional field as absent/null (`some none`), a string
(`some (some s)`), or something else (`none`). -/
def asOptStr : Option JVal → Option (Option String)
  | none => some none
  | some JVal.jnull => some none
  | some (JVal.jstr s) => some (some s)
  | some _ => none

/-- Classify an optional field as absent/null (`some none`), an integer
(`some (some n)`), or something else (`none`). -/
def asOptInt : Option JVal → Option (Option Int)
  | none => some none
  | some JVal.jnull => some none
  | some (JVal.jnum n) => some (some n)
  | some _ => none

mutual

/-- Python `repr` of a value, as far as the program can observe it.
Quote/backslash escaping inside nested strings is not modelled: `repr`
output only ever reaches storage as an opaque blob or the stringified
form of a bare (in practice string-valued) list item. -/
def JVal.pyRepr : JVal → String
  | JVal.jnull => "None"
  | JVal.jbool true => "True"
  | JVal.jbool false => "False"
  | JVal.jnum n => toString n
  | JVal.jstr s => "\x27" ++ s ++ "\x27"
  | JVal.jarr l => "[" ++ JVal.pyReprList l ++ "]"
  | JVal.jobj l => "\x7b" ++ JVal.pyReprObj l ++ "\x7d"

/-- Comma-separated `repr` of list elements. -/
def JVal.pyReprList : List JVal → String
  | [] => ""
  | [x] => JVal.pyRepr x
  | x :: y :: xs => JVal.pyRepr x ++ ", " ++ JVal.pyReprList (y :: xs)

/-- Comma-separated `repr` of dict items. -/
def JVal.pyReprObj : List (String × JVal) → String
  | [] => ""
  | [(k, v)] => "\x27" ++ k ++ "\x27: " ++ JVal.pyRepr v
  | (k, v) :: y :: xs =>
      "\x27" ++ k ++ "\x27: " ++ JVal.pyRepr v ++ ", " ++ JVal.pyReprObj (y :: xs)

end

/-- Python `str`: identity on strings, `repr`-like elsewhere. -/
def JVal.pyStr : JVal → String
  | JVal.jstr s => s
  | v => JVal.pyRepr v

/-- Four-digit hexadecimal rendering used by `\uXXXX` escapes. -/
def hex4 (n : Nat) : String :=
  let ds := Nat.toDigits 16 n
  String.mk (List.replicate (4 - ds.length) (Char.ofNat 48) ++ ds)

/-- Escape one character the way `json.dumps` (default options) does. -/
def jsonEscapeChar (c : Char) : String :=
  if c = Char.ofNat 34 then "\\\""
  else if c = Char.ofNat 92 then "\\\\"
  else if c = Char.ofNat 10 then "\\n"
  else if c = Char.ofNat 9 then "\\t"
  else if c = Char.ofNat 13 then "\\r"
  else if c.toNat < 32 ∨ c.toNat > 126 then "\\u" ++ hex4 c.toNat
  else String.singleton c

/-- String-body escaping of `json.dumps` (characters beyond the basic
multilingual plane would use surrogate pairs in Python; the blob is opaque
to the program, so the exact escape table is never observed by it). -/
def jsonEscape (s : String) : String :=
  String.join (s.toList.map jsonEscapeChar)

mutual

/-- `json.dumps` with default separators, as used to serialize the
nested relation/category fields into opaque string blobs. -/
def JVal.dumps : JVal → String
  | JVal.jnull => "null"
  | JVal.jbool true => "true"
  | JVal.jbool false => "false"
  | JVal.jnum n => toString n
  | JVal.jstr s => "\"" ++ jsonEscape s ++ "\""
  | JVal.jarr l => "[" ++ JVal.dumpsList l ++ "]"
  | JVal.jobj l => "\x7b" ++ JVal.dumpsObj l ++ "\x7d"

/-- Comma-separated `json.dumps` of list elements. -/
def JVal.dumpsList : List JVal → String
  | [] => ""
  | [x] => JVal.dumps x
  | x :: y :: xs => JVal.dumps x ++ ", " ++ JVal.dumpsList (y :: xs)

/-- Comma-separated `json.dumps` of dict items. -/
def JVal.dumpsObj : List (String × JVal) → String
  | [] => ""
  | [(k, v)] => "\"" ++ jsonEscape k ++ "\": " ++ JVal.dumps v
  | (k, v) :: y :: xs =>
      "\"" ++ jsonEscape k ++ "\": " ++ JVal.dumps v ++ ", " ++ JVal.dumpsObj (y :: xs)

end

/-- `make_node_id`: canonical node id `lang_code:word:pos:etymology_number`.
`lang_code`, `word` and `pos` go through Python `or ""` (falsy values fall
back to the empty string); `etymology_number` is replaced by `0` exactly
when it `is None` (missing key or JSON null).  The components are rendered
by the f-string via `str`. -/
def make_node_id (entry : Obj) : String :=
  let lang_code := pyOrV (getv entry "lang_code") (JVal.jstr "")
  let word := pyOrV (getv entry "word") (JVal.jstr "")
  let pos := pyOrV (getv entry "pos") (JVal.jstr "")
  let ety_num := match getv entry "etymology_number" with
    | JVal.jnull => JVal.jnum 0
    | v => v
  JVal.pyStr lang_code ++ ":" ++ JVal.pyStr word ++ ":" ++
    JVal.pyStr pos ++ ":" ++ JVal.pyStr ety_num

/-- `JSON_FIELDS`: fields JSON-encoded before storage.  The source holds
them in a Python set; only membership is ever used, so a list models it. -/
def JSON_FIELDS : List String :=
  ["etymology_templates", "derived", "descendants", "alt_of", "form_of",
   "categories", "redirects"]

/-- `TARGET_KEYS`: the allow-list of output attributes.  The source holds
them in a Python set and iterates over it; set iteration order is
unspecified in Python, and the constructed value is a dict, for which only
per-key lookup is observable, so the source declaration order is used. -/
def TARGET_KEYS : List String :=
  ["word", "lang", "lang_code", "pos", "etymology_number", "etymology_text",
   "etymology_templates", "derived", "descendants", "alt_of", "form_of",
   "categories", "redirects", "literal_meaning", "wikidata"]

/-- `normalize_entry`: project a raw entry onto `TARGET_KEYS` plus
`node_id`; JSON fields are serialized (`json.dumps`) when their value
`is not None`, stored as null otherwise; other fields pass through
(missing keys surface as `None`, i.e. null). -/
def normalize_entry (entry : Obj) : Obj :=
  (TARGET_KEYS.map (fun key =>
    let value := getv entry key
    if key ∈ JSON_FIELDS then
      (key, if value = JVal.jnull then JVal.jnull else JVal.jstr (JVal.dumps value))
    else
      (key, value)))
  ++ [("node_id", JVal.jstr (make_node_id entry))]

/-- A persisted row of the `entries` table, one field per column.
`node_id` is the TEXT primary key (always a string: it is produced by
`make_node_id`).  The remaining columns keep the bound Python value.
SQLite type affinity conversions are not modelled; the claims below are
stated over string-valued `word`/`lang_code` and integer-or-null
`etymology_number`, where affinity is the identity. -/
structure Row where
  node_id : String
  word : JVal
  lang : JVal
  lang_code : JVal
  pos : JVal
  etymology_number : JVal
  etymology_text : JVal
  etymology_templates : JVal
  derived : JVal
  descendants : JVal
  alt_of : JVal
  form_of : JVal
  categories : JVal
  redirects : JVal
  literal_meaning : JVal
  wikidata : JVal
deriving DecidableEq

/-- Bind one Python value as an SQL parameter: booleans are adapted to
integers, lists and dicts are unsupported and raise (`sqlite3` refuses
them), everything else binds as itself. -/
def bindParam (v : JVal) : Except String JVal :=
  match v with
  | JVal.jbool b => Except.ok (JVal.jnum (if b then 1 else 0))
  | JVal.jarr _ => Except.error "InterfaceError: unsupported parameter type"
  | JVal.jobj _ => Except.error "InterfaceError: unsupported parameter type"
  | v => Except.ok v

/-- Execute the `INSERT OR REPLACE INTO entries` parameter binding and
constraint checks for one normalized entry: bind all sixteen parameters,
then enforce the schema's `NOT NULL` constraints on `word` and
`lang_code` (`SCHEMA_ENTRIES`).  A violation raises, which aborts the
run (the program installs no handler for it). -/
def rowOfNorm (norm : Obj) : Except String Row := do
  let nid ← match jget norm "node_id" with
    | some (JVal.jstr s) => Except.ok s
    | _ => Except.error "node_id is not text"
  let word ← bindParam (getv norm "word")
  let lang ← bindParam (getv norm "lang")
  let lang_code ← bindParam (getv norm "lang_code")
  let pos ← bindParam (getv norm "pos")
  let etymology_number ← bindParam (getv norm "etymology_number")
  let etymology_text ← bindParam (getv norm "etymology_text")
  let etymology_templates ← bindParam (getv norm "etymology_templates")
  let derived ← bindParam (getv norm "derived")
  let descendants ← bindParam (getv norm "descendants")
  let alt_of ← bindParam (getv norm "alt_of")
  let form_of ← bindParam (getv norm "form_of")
  let categories ← bindParam (getv norm "categories")
  let redirects ← bindParam (getv norm "redirects")
  let literal_meaning ← bindParam (getv norm "literal_meaning")
  let wikidata ← bindParam (getv norm "wikidata")
  if word = JVal.jnull then
    Except.error "IntegrityError: NOT NULL constraint failed: entries.word"
  else if lang_code = JVal.jnull then
    Except.error "IntegrityError: NOT NULL constraint failed: entries.lang_code"
  else
    Except.ok
      { node_id := nid, word := word, lang := lang, lang_code := lang_code,
        pos := pos, etymology_number := etymology_number,
        etymology_text := etymology_text,
        etymology_templates := etymology_templates, derived := derived,
        descendants := descendants, alt_of := alt_of, form_of := form_of,
        categories := categories, redirects := redirects,
        literal_meaning := literal_meaning, wikidata := wikidata }

/-- `INSERT OR REPLACE` keyed on the `node_id` primary key: any row with
the same key is deleted and the new row is inserted (at the end of the
table's scan order, as SQLite re-inserts it with a fresh rowid). -/
def upsertRow (tbl : List Row) (r : Row) : List Row :=
  tbl.filter (fun x => decide (x.node_id ≠ r.node_id)) ++ [r]

/-- One line of the compressed JSONL corpus, after stripping:
empty, undecodable (`json.JSONDecodeError`), or a decoded object. -/
inductive Line where
  | blank : Line
  | malformed : Line
  | record : Obj → Line

/-- Pass-1 processing of a single corpus line over the running
`(entries table, inserted count)` state: blank and malformed lines are
skipped (no count change), records missing the `word` or `lang_code` key
are skipped, everything else is normalized and upserted. -/
def step1 (st : List Row × Nat) (l : Line) : Except String (List Row × Nat) :=
  match l with
  | Line.blank => Except.ok st
  | Line.malformed => Except.ok st
  | Line.record e =>
    if jget e "word" = none ∨ jget e "lang_code" = none then Except.ok st
    else
      match rowOfNorm (normalize_entry e) with
      | Except.error msg => Except.error msg
      | Except.ok r => Except.ok (upsertRow st.1 r, st.2 + 1)

/-- Run a per-line step over the corpus, stopping at the first raised
exception (the program installs no handler inside the loops). -/
def runLines {σ : Type} (step : σ → Line → Except String σ) :
    σ → List Line → Except String σ
  | st, [] => Except.ok st
  | st, l :: ls =>
    match step st l with
    | Except.error e => Except.error e
    | Except.ok st' => runLines step st' ls

/-- `insert_entries_from_jsonl` (pass 1), starting from an empty freshly
initialized table: returns the final table and the inserted-entry count.
The periodic `conn.commit()` checkpoints have no observable effect on
the resulting table and are not modelled. -/
def insert_entries_from_jsonl (lines : List Line) : Except String (List Row × Nat) :=
  runLines step1 ([], 0) lines

/-- A candidate row as returned by the resolver's query
`SELECT node_id, pos, etymology_number FROM entries WHERE ...`. -/
structure Cand where
  node_id : String
  pos : JVal
  ety : JVal
deriving DecidableEq

/-- The comparison induced by the sort key
`lambda r: (r[2] is None, r[2])`: a null etymology number sorts after
every non-null one, integers sort by value.  Comparing two key tuples
whose second components are non-null non-integers would raise
`TypeError` in Python; the catch-all returns `true` and the resolution
theorems are stated over integer-or-null etymology numbers, where the
catch-all is never consulted. -/
def etyKeyLe (a b : JVal) : Bool :=
  match a, b with
  | JVal.jnull, JVal.jnull => true
  | JVal.jnull, _ => false
  | _, JVal.jnull => true
  | JVal.jnum x, JVal.jnum y => decide (x ≤ y)
  | _, _ => true

/-- Insert `a` in front of the first element `b` with `le a b`;
elements strictly smaller than `a` stay in front of it. -/
def insStable {α : Type} (le : α → α → Bool) (a : α) : List α → List α
  | [] => [a]
  | b :: bs => if le a b then a :: b :: bs else b :: insStable le a bs

/-- Stable insertion sort.  Python's `list.sort` is a stable sort, and a
stable sort's output list is uniquely determined by the ordering and the
input order, so this computes exactly the list `list.sort` produces. -/
def pySort {α : Type} (le : α → α → Bool) : List α → List α
  | [] => []
  | a :: as => insStable le a (pySort le as)

/-- The first element of the list attaining the minimum of `le`
(specification-side description of the head of a stable sort). -/
def firstMinBy {α : Type} (le : α → α → Bool) : List α → Option α
  | [] => none
  | a :: as =>
    match firstMinBy le as with
    | none => some a
    | some m => if le a m then some a else some m

/-- `pick_best`: disambiguate among candidate rows.
Step 1 (only when `current_pos` is truthy): filter candidates whose
`pos or ""` equals `current_pos`, stable-sort them by the etymology-number
key and return the first.  Step 2: first candidate whose etymology number
is null or `0`.  Step 3: first candidate. -/
def pick_best (candidates : List Cand) (current_pos : JVal) : Option String :=
  if candidates = [] then none
  else
    let step_pos : Option String :=
      if JVal.truthy current_pos then
        let pos_matches := candidates.filter
          (fun r => decide (pyOrV r.pos (JVal.jstr "") = current_pos))
        match pySort (fun a b => etyKeyLe a.ety b.ety) pos_matches with
        | [] => none
        | m :: _ => some m.node_id
      else none
    match step_pos with
    | some id => some id
    | none =>
      let ety0 := candidates.filter
        (fun r => decide (r.ety = JVal.jnull ∨ r.ety = JVal.jnum 0))
      match ety0 with
      | e :: _ => some e.node_id
      | [] =>
        match candidates with
        | c :: _ => some c.node_id
        | [] => none

/-- `resolve_target_node`: given a target language and word, return the
matching node id, or `none` when `lang_code` or `word` is falsy or no row
matches.  The query reads the `entries` table and writes nothing: the
model consumes the table and returns only an optional id.  Candidate
order is the table's scan order (the spec leaves retrieval order to the
store). -/
def resolve_target_node (tbl : List Row) (lang_code word current_pos : JVal) :
    Option String :=
  if ¬ JVal.truthy lang_code ∨ ¬ JVal.truthy word then none
  else
    let rows := (tbl.filter
        (fun r => decide (r.lang_code = lang_code ∧ r.word = word))).map
      (fun r => Cand.mk r.node_id r.pos r.etymology_number)
    if rows = [] then none
    else pick_best rows current_pos

/-- A relation reference yielded by `iter_relation_items`: the raw
`word` value and an optional language (`jnull` models Python `None`). -/
structure RelRef where
  word : JVal
  lang_code : JVal
deriving DecidableEq

/-- The sequence a Python `for` loop sees: lists yield their elements,
strings their one-character substrings, dicts their keys; iterating any
other truthy value raises `TypeError` (`none`). -/
def pyIterElems : JVal → Option (List JVal)
  | JVal.jarr l => some l
  | JVal.jstr s => some (s.toList.map (fun c => JVal.jstr (String.singleton c)))
  | JVal.jobj fs => some (fs.map (fun kv => JVal.jstr kv.1))
  | _ => none

/-- The per-item body of `iter_relation_items`: a dict item with a falsy
`word` is skipped, a dict item with a truthy `word` yields it together
with `item.get("lang_code") or item.get("lang")`, and any non-dict item
yields its `str` form with no language. -/
def relRefOfItem (item : JVal) : Option RelRef :=
  match item with
  | JVal.jobj fields =>
    let word := getv fields "word"
    if ¬ JVal.truthy word then none
    else some (RelRef.mk word (pyOrV (getv fields "lang_code") (getv fields "lang")))
  | v => some (RelRef.mk (JVal.jstr (JVal.pyStr v)) JVal.jnull)

/-- `iter_relation_items`: iterate `entry.get(field) or []` and yield one
reference per item.  `none` models the `TypeError` raised when the field
holds a truthy non-iterable value. -/
def iter_relation_items (entry : Obj) (field : String) : Option (List RelRef) :=
  match pyIterElems (pyOrV (getv entry field) (JVal.jarr [])) with
  | none => none
  | some elems => some (elems.filterMap relRefOfItem)

/-- A relation spec row:
`(field_name, relation_type, use_pos_for_matching, fallback_to_entry_lang_if_missing)`. -/
abbrev Spec := String × String × Bool × Bool

/-- `RELATION_SPECS`, verbatim from the source. -/
def RELATION_SPECS : List Spec :=
  [("alt_of", "alt_of", true, true),
   ("form_of", "form_of", true, true),
   ("redirects", "redirect", true, true),
   ("derived", "derived", false, true),
   ("descendants", "descendant", false, false)]

/-- A persisted row of the `edges` table (the surrogate key and the
always-null `raw_payload` column are omitted; nothing reads them). -/
structure Edge where
  src_id : String
  dst_id : String
  relation_type : String
deriving DecidableEq

/-- Pass-2 handling of one extracted reference under one relation spec:
skip a falsy target word; inherit the citing entry's language when the
reference's language is falsy and the spec allows it; skip if the
language is still falsy; resolve with the spec's POS policy; skip a
falsy resolution result; otherwise emit the edge. -/
def edgeForRef (tbl : List Row) (src_id : String) (current_pos entry_lang : JVal)
    (spec : Spec) (rel : RelRef) : Option Edge :=
  if ¬ JVal.truthy rel.word then none
  else
    let target_lang :=
      if ¬ JVal.truthy rel.lang_code ∧ spec.2.2.2 then entry_lang else rel.lang_code
    if ¬ JVal.truthy target_lang then none
    else
      let pos_for_match := if spec.2.2.1 then current_pos else JVal.jnull
      match resolve_target_node tbl target_lang rel.word pos_for_match with
      | none => none
      | some dst_id =>
        if dst_id = "" then none else some (Edge.mk src_id dst_id spec.2.1)

/-- Pass-2 handling of one entry across a list of relation specs, in
order.  A `TypeError` from iterating a non-iterable field propagates
(edges already inserted for earlier specs of the aborting entry are not
tracked: the run stops there). -/
def edgesForSpecs (tbl : List Row) (e : Obj) (src_id : String)
    (current_pos entry_lang : JVal) : List Spec → Except String (List Edge)
  | [] => Except.ok []
  | spec :: rest =>
    match iter_relation_items e spec.1 with
    | none => Except.error "TypeError: object is not iterable"
    | some rels =>
      match edgesForSpecs tbl e src_id current_pos entry_lang rest with
      | Except.error msg => Except.error msg
      | Except.ok es' =>
        Except.ok ((rels.filterMap (edgeForRef tbl src_id current_pos entry_lang spec)) ++ es')

/-- All edges pass 2 inserts for one entry: its own identity is the edge
source, its `pos` is the POS hint, its `lang_code` the inherited
language. -/
def edgesForEntry (tbl : List Row) (e : Obj) : Except String (List Edge) :=
  edgesForSpecs tbl e (make_node_id e) (getv e "pos") (getv e "lang_code") RELATION_SPECS

/-- Pass-2 processing of a single corpus line over the running
`(edges, processed-entry count)` state: the same skip rules as pass 1,
then the per-entry edge insertion. -/
def step2 (tbl : List Row) (st : List Edge × Nat) (l : Line) :
    Except String (List Edge × Nat) :=
  match l with
  | Line.blank => Except.ok st
  | Line.malformed => Except.ok st
  | Line.record e =>
    if jget e "word" = none ∨ jget e "lang_code" = none then Except.ok st
    else
      match edgesForEntry tbl e with
      | Except.error msg => Except.error msg
      | Except.ok es => Except.ok (st.1 ++ es, st.2 + 1)

/-- `insert_edges_from_jsonl` (pass 2): re-read the corpus against the
node table produced by pass 1 and collect edges. -/
def insert_edges_from_jsonl (tbl : List Row) (lines : List Line) :
    Except String (List Edge × Nat) :=
  runLines (step2 tbl) ([], 0) lines

/-- An etymology-number value of the type the data model prescribes:
null (absent) or an integer. -/
def EtyOk (v : JVal) : Prop := v = JVal.jnull ∨ ∃ n : Int, v = JVal.jnum n

/-- The reference extraction exactly as §4.3 of the specification words
it, for comparison with `iter_relation_items`: a structured item with an
empty or missing `word` is skipped, otherwise it yields its word with
the language taken from its own language-code attribute, falling back to
the language-name attribute when the code is absent, and null otherwise;
a bare item yields its stringified form with no language. -/
def extract_spec_item : JVal → Option RelRef
  | JVal.jobj fields =>
    match jget fields "word" with
    | some (JVal.jstr w) =>
      if w = "" then none
      else some (RelRef.mk (JVal.jstr w)
        (match jget fields "lang_code" with
         | some (JVal.jstr c) => JVal.jstr c
         | _ =>
           match jget fields "lang" with
           | some (JVal.jstr lg) => JVal.jstr lg
           | _ => JVal.jnull))
    | _ => none
  | v => some (RelRef.mk (JVal.jstr (JVal.pyStr v)) JVal.jnull)

/-- Well-typedness of one relation item, as the data model prescribes:
in a structured item, `word` is a string or absent/null and the two
language attributes are non-empty strings or absent/null.  Bare items
are unrestricted. -/
def wellTypedItem : JVal → Prop
  | JVal.jobj fields =>
      (asOptStr (jget fields "word")).isSome = true ∧
      (asOptStr (jget fields "lang_code")).isSome = true ∧
      asOptStr (jget fields "lang_code") ≠ some (some "") ∧
      (asOptStr (jget fields "lang")).isSome = true ∧
      asOptStr (jget fields "lang") ≠ some (some "")
  | _ => True

/-- Fixture: the node that the spec's end-to-end example stores for
`{lang_code: "en", word: "foo", pos: "noun", etymology_number: 0}`. -/
def exRowFoo : Row :=
  Row.mk "en:foo:noun:0" (JVal.jstr "foo") JVal.jnull (JVal.jstr "en")
    (JVal.jstr "noun") (JVal.jnum 0) JVal.jnull JVal.jnull JVal.jnull
    JVal.jnull JVal.jnull JVal.jnull JVal.jnull JVal.jnull JVal.jnull JVal.jnull

/-- Fixture: the first entry of the spec's end-to-end example. -/
def exEntryFoo : Obj :=
  [("lang_code", JVal.jstr "en"), ("word", JVal.jstr "foo"),
   ("pos", JVal.jstr "noun"), ("etymology_number", JVal.jnum 0)]

/-- Fixture: the second entry of the spec's end-to-end example, citing
`foo` as a derived term. -/
def exEntryBar : Obj :=
  [("lang_code", JVal.jstr "en"), ("word", JVal.jstr "bar"),
   ("pos", JVal.jstr "verb"), ("derived", JVal.jarr [JVal.jstr "foo"])]

/-- Fixture: the node that pass 1 stores for `exEntryBar` (its `derived`
list serialized to a blob, its missing scalars null). -/
def exRowBar : Row :=
  Row.mk "en:bar:verb:0" (JVal.jstr "bar") JVal.jnull (JVal.jstr "en")
    (JVal.jstr "verb") JVal.jnull JVal.jnull JVal.jnull
    (JVal.jstr "[\"foo\"]") JVal.jnull JVal.jnull JVal.jnull JVal.jnull
    JVal.jnull JVal.jnull JVal.jnull

/-! ### Properties of the stable sort and of `firstMinBy` -/

theorem mem_insStable {α : Type} (le : α → α → Bool) (a x : α) :
    ∀ s : List α, x ∈ insStable le a s ↔ x = a ∨ x ∈ s
  | [] => by simp [insStable]
  | b :: bs => by
    by_cases h : le a b
    · simp [insStable, h]
    · simp only [insStable, if_neg h, List.mem_cons, mem_insStable le a x bs]
      tauto

theorem mem_pySort {α : Type} (le : α → α → Bool) (x : α) :
    ∀ l : List α, x ∈ pySort le l ↔ x ∈ l
  | [] => Iff.rfl
  | a :: as => by
    simp only [pySort, mem_insStable, List.mem_cons, mem_pySort le x as]

theorem insStable_ne_nil {α : Type} (le : α → α → Bool) (a : α) :
    ∀ s : List α, insStable le a s ≠ []
  | [] => by simp [insStable]
  | b :: bs => by
    by_cases h : le a b <;> simp [insStable, h]

theorem pySort_eq_nil_iff {α : Type} (le : α → α → Bool) :
    ∀ l : List α, pySort le l = [] ↔ l = []
  | [] => by simp [pySort]
  | a :: as => by
    simp [pySort, insStable_ne_nil]

theorem firstMinBy_eq_none_iff {α : Type} (le : α → α → Bool) :
    ∀ l : List α, firstMinBy le l = none ↔ l = []
  | [] => by simp [firstMinBy]
  | a :: as => by
    simp only [firstMinBy]
    cases firstMinBy le as with
    | none => simp
    | some m => by_cases h : le a m <;> simp [h]

theorem firstMinBy_mem {α : Type} (le : α → α → Bool) :
    ∀ (l : List α) (m : α), firstMinBy le l = some m → m ∈ l
  | a :: as, m, h => by
    simp only [firstMinBy] at h
    cases hh : firstMinBy le as with
    | none =>
      rw [hh] at h
      simp only [Option.some.injEq] at h
      simp [← h]
    | some m' =>
      rw [hh] at h
      by_cases hab : le a m'
      · simp only [if_pos hab, Option.some.injEq] at h
        simp [← h]
      · simp only [if_neg hab, Option.some.injEq] at h
        rw [← h]
        exact List.mem_cons_of_mem a (firstMinBy_mem le as m' hh)

/-- The head of a stable sort is the first minimum of the input. -/
theorem head?_pySort {α : Type} (le : α → α → Bool) (l : List α) :
    (pySort le l).head? = firstMinBy le l := by
  induction l with
  | nil => rfl
  | cons a as ih =>
    show (insStable le a (pySort le as)).head? = _
    cases h : pySort le as with
    | nil =>
      rw [h] at ih
      simp only [firstMinBy, ← ih]
      rfl
    | cons b s' =>
      rw [h] at ih
      simp only [firstMinBy, ← ih]
      by_cases hab : le a b
      · simp [insStable, hab]
      · simp [insStable, hab]

/-- `firstMinBy` really picks the first element attaining the minimum:
the input splits as `pre ++ m :: post` where every element of `pre` is
strictly above `m` and `m` is `le` everything.  Totality and
transitivity are only required on elements satisfying `P`. -/
theorem firstMinBy_split {α : Type} (le : α → α → Bool) (P : α → Prop)
    (htot : ∀ x y, P x → P y → le x y = true ∨ le y x = true)
    (htrans : ∀ x y z, P x → P y → P z → le x y = true → le y z = true → le x z = true) :
    ∀ (l : List α), (∀ x ∈ l, P x) → ∀ m, firstMinBy le l = some m →
      ∃ pre post, l = pre ++ m :: post ∧ (∀ x ∈ pre, le x m = false) ∧
        (∀ x ∈ l, le m x = true)
  | [], _, m, hm => by cases hm
  | a :: as, hP, m, hm => by
    have hPa : P a := hP a (List.mem_cons_self a as)
    have hPas : ∀ x ∈ as, P x := fun x hx => hP x (List.mem_cons_of_mem a hx)
    simp only [firstMinBy] at hm
    cases hh : firstMinBy le as with
    | none =>
      have has : as = [] := (firstMinBy_eq_none_iff le as).mp hh
      rw [hh] at hm
      simp only [Option.some.injEq] at hm
      refine ⟨[], as, by rw [← hm]; rfl, by simp, ?_⟩
      intro x hx
      subst has
      simp only [List.mem_singleton] at hx
      rw [hx, ← hm]
      rcases htot a a hPa hPa with h | h <;> exact h
    | some m' =>
      rw [hh] at hm
      have hm'mem : m' ∈ as := firstMinBy_mem le as m' hh
      have hPm' : P m' := hPas m' hm'mem
      obtain ⟨pre', post', hsplit, hpre', hmin'⟩ :=
        firstMinBy_split le P htot htrans as hPas m' hh
      by_cases hab : le a m'
      · simp only [if_pos hab, Option.some.injEq] at hm
        refine ⟨[], as, by rw [← hm]; rfl, by simp, ?_⟩
        intro x hx
        rw [← hm]
        rcases List.mem_cons.mp hx with hxa | hx'
        · rw [hxa]
          rcases htot a a hPa hPa with h | h <;> exact h
        · exact htrans a m' x hPa hPm' (hPas x hx') hab (hmin' x hx')
      · simp only [if_neg hab, Option.some.injEq] at hm
        refine ⟨a :: pre', post', ?_, ?_, ?_⟩
        · rw [← hm, hsplit]; rfl
        · intro x hx
          rw [← hm]
          rcases List.mem_cons.mp hx with hxa | hx'
          · rw [hxa]
            exact Bool.eq_false_iff.mpr hab
          · exact hpre' x hx'
        · intro x hx
          rw [← hm]
          rcases List.mem_cons.mp hx with hxa | hx'
          · rw [hxa]
            rcases htot a m' hPa hPm' with h | h
            · exact absurd h hab
            · exact h
          · exact hmin' x hx'

/-! ### Properties of `pick_best` -/

theorem pick_best_isSome (cs : List Cand) (cp : JVal) (h : cs ≠ []) :
    (pick_best cs cp).isSome = true := by
  simp only [pick_best, if_neg h]
  split
  · rfl
  · split
    · rfl
    · split
      · rfl
      · next heq => exact absurd heq h

theorem pick_best_mem (cs : List Cand) (cp : JVal) (id : String)
    (h : pick_best cs cp = some id) : ∃ c ∈ cs, c.node_id = id := by
  by_cases hne : cs = []
  · rw [hne] at h
    simp [pick_best] at h
  · simp only [pick_best, if_neg hne] at h
    split at h
    next id' heq =>
      rw [Option.some.injEq] at h
      subst h
      split at heq
      · split at heq
        · simp at heq
        · next m rest hsort =>
            rw [Option.some.injEq] at heq
            have hmem : m ∈ pySort (fun a b => etyKeyLe a.ety b.ety)
                (cs.filter (fun r => decide (pyOrV r.pos (JVal.jstr "") = cp))) := by
              rw [hsort]
              exact List.mem_cons_self m rest
            have hmem2 := (mem_pySort _ m _).mp hmem
            exact ⟨m, (List.mem_filter.mp hmem2).1, heq⟩
      · simp at heq
    next heq =>
      split at h
      · next e es hety =>
          rw [Option.some.injEq] at h
          have hmem : e ∈ cs.filter
              (fun r => decide (r.ety = JVal.jnull ∨ r.ety = JVal.jnum 0)) := by
            rw [hety]
            exact List.mem_cons_self e es
          exact ⟨e, (List.mem_filter.mp hmem).1, h⟩
      · split at h
        · next c cs' hcs =>
            rw [Option.some.injEq] at h
            exact ⟨c, List.mem_cons_self c cs', h⟩
        · simp at h

theorem etyKeyLe_total (a b : JVal) (ha : EtyOk a) (hb : EtyOk b) :
    etyKeyLe a b = true ∨ etyKeyLe b a = true := by
  rcases ha with h1 | ⟨n1, h1⟩ <;> rcases hb with h2 | ⟨n2, h2⟩ <;>
    rw [h1, h2] <;> simp [etyKeyLe]
  exact Int.le_total n1 n2

theorem etyKeyLe_trans (a b c : JVal) (ha : EtyOk a) (hb : EtyOk b) (hc : EtyOk c)
    (hab : etyKeyLe a b = true) (hbc : etyKeyLe b c = true) : etyKeyLe a c = true := by
  rcases ha with h1 | ⟨n1, h1⟩ <;> rcases hb with h2 | ⟨n2, h2⟩ <;>
      rcases hc with h3 | ⟨n3, h3⟩ <;>
    (subst h1; subst h2; subst h3; simp [etyKeyLe] at *; try omega)

/-- C1: with a non-empty truthy `current_pos` and at least one candidate
whose part-of-speech equals it, `pick_best` returns the node id of the
POS-matching candidate with the smallest etymology number (null sorting
after every integer), remaining ties resolving to the first such
candidate in retrieval order: the POS-matching sublist splits as
`pre ++ m :: post` with every element of `pre` strictly greater than `m`
in the etymology order and `m` minimal among all matches, and the
returned id is `m.node_id`. -/
theorem C1_pick_best_pos_match (cs : List Cand) (p : String) (hp : p ≠ "")
    (hety : ∀ c ∈ cs, EtyOk c.ety)
    (hmatch : ∃ c ∈ cs, c.pos = JVal.jstr p) :
    ∃ pre m post,
      cs.filter (fun r => decide (r.pos = JVal.jstr p)) = pre ++ m :: post ∧
      (∀ x ∈ pre, etyKeyLe x.ety m.ety = false) ∧
      (∀ x ∈ cs.filter (fun r => decide (r.pos = JVal.jstr p)),
        etyKeyLe m.ety x.ety = true) ∧
      pick_best cs (JVal.jstr p) = some m.node_id := by
  obtain ⟨c0, hc0mem, hc0pos⟩ := hmatch
  have hne : cs ≠ [] := by
    intro h
    rw [h] at hc0mem
    exact absurd hc0mem (List.not_mem_nil c0)
  have htruthy : JVal.truthy (JVal.jstr p) = true := by
    simp [JVal.truthy, hp]
  have hfe : cs.filter (fun r => decide (pyOrV r.pos (JVal.jstr "") = JVal.jstr p)) =
      cs.filter (fun r => decide (r.pos = JVal.jstr p)) := by
    apply List.filter_congr
    intro r _
    apply decide_eq_decide.mpr
    unfold pyOrV
    by_cases ht : JVal.truthy r.pos
    · rw [if_pos ht]
    · rw [if_neg ht]
      constructor
      · intro hcontr
        injection hcontr with hps
        exact absurd hps.symm hp
      · intro hcontr
        rw [hcontr] at ht
        exact absurd htruthy (by simpa using ht)
  set matched := cs.filter (fun r => decide (r.pos = JVal.jstr p)) with hmdef
  have hmne : matched ≠ [] := by
    intro hnil
    have : c0 ∈ matched := List.mem_filter.mpr ⟨hc0mem, by simp [hc0pos]⟩
    rw [hnil] at this
    exact absurd this (List.not_mem_nil c0)
  have hmin : ∃ m, firstMinBy (fun a b => etyKeyLe a.ety b.ety) matched = some m := by
    cases hfm : firstMinBy (fun a b => etyKeyLe a.ety b.ety) matched with
    | none => exact absurd ((firstMinBy_eq_none_iff _ matched).mp hfm) hmne
    | some m => exact ⟨m, rfl⟩
  obtain ⟨m, hm⟩ := hmin
  have hmP : ∀ x ∈ matched, EtyOk x.ety := fun x hx =>
    hety x (List.mem_filter.mp hx).1
  obtain ⟨pre, post, hsplit, hpre, hminall⟩ :=
    firstMinBy_split (fun a b => etyKeyLe a.ety b.ety) (fun c => EtyOk c.ety)
      (fun x y hx hy => etyKeyLe_total x.ety y.ety hx hy)
      (fun x y z hx hy hz => etyKeyLe_trans x.ety y.ety z.ety hx hy hz)
      matched hmP m hm
  refine ⟨pre, m, post, hsplit, hpre, hminall, ?_⟩
  simp only [pick_best, if_neg hne, if_pos htruthy]
  rw [hfe]
  cases hsort : pySort (fun a b => etyKeyLe a.ety b.ety) matched with
  | nil => exact absurd ((pySort_eq_nil_iff _ matched).mp hsort) hmne
  | cons m' rest =>
    have hhead := head?_pySort (fun a b => etyKeyLe a.ety b.ety) matched
    rw [hsort, hm] at hhead
    simp only [List.head?, Option.some.injEq] at hhead
    rw [hhead]

/-- C2: when `current_pos` is falsy (not supplied) or no candidate's
`pos or ""` equals it, `pick_best` returns the node id of the head of
`ety0 ++ candidates`, where `ety0` keeps the candidates whose etymology
number is null or `0` — i.e. the first null-or-zero candidate in
retrieval order, or the first candidate when none qualifies — and the
result is always `some` on a non-empty candidate list. -/
theorem C2_pick_best_fallback (cs : List Cand) (cp : JVal) (hne : cs ≠ [])
    (hnomatch : JVal.truthy cp = false ∨
      cs.filter (fun r => decide (pyOrV r.pos (JVal.jstr "") = cp)) = []) :
    pick_best cs cp =
      ((cs.filter (fun r => decide (r.ety = JVal.jnull ∨ r.ety = JVal.jnum 0)) ++ cs).head?).map
        (fun c => c.node_id) ∧
    (∃ id, pick_best cs cp = some id ∧ ∃ c ∈ cs, c.node_id = id) := by
  refine ⟨?heq, ?tot⟩
  case tot =>
    obtain ⟨id, hid⟩ := Option.isSome_iff_exists.mp (pick_best_isSome cs cp hne)
    exact ⟨id, hid, pick_best_mem cs cp id hid⟩

  have hsp : (if JVal.truthy cp then
      match pySort (fun a b => etyKeyLe a.ety b.ety)
          (cs.filter (fun r => decide (pyOrV r.pos (JVal.jstr "") = cp))) with
      | [] => none
      | m :: _ => some m.node_id
    else none) = (none : Option String) := by
    rcases hnomatch with hfalsy | hempty
    · rw [if_neg (by simp [hfalsy])]
    · rw [hempty]
      simp [pySort]
  simp only [pick_best, if_neg hne, hsp]
  cases hety : cs.filter (fun r => decide (r.ety = JVal.jnull ∨ r.ety = JVal.jnum 0)) with
  | cons e es => simp
  | nil =>
    simp only [List.nil_append]
    cases hcs : cs with
    | nil => exact absurd hcs hne
    | cons c cs' => simp

/-- C1 witness: the spec's tie-break example
`[(A, noun, 1), (B, noun, 0), (C, verb, 0)]` with `current_pos = "noun"`
picks `B`. -/
theorem C1_pick_best_pos_match_witness :
    pick_best [Cand.mk "A" (JVal.jstr "noun") (JVal.jnum 1),
               Cand.mk "B" (JVal.jstr "noun") (JVal.jnum 0),
               Cand.mk "C" (JVal.jstr "verb") (JVal.jnum 0)]
        (JVal.jstr "noun") = some "B" ∧
    (∃ pre m post,
      ([Cand.mk "A" (JVal.jstr "noun") (JVal.jnum 1),
        Cand.mk "B" (JVal.jstr "noun") (JVal.jnum 0),
        Cand.mk "C" (JVal.jstr "verb") (JVal.jnum 0)].filter
          (fun r => decide (r.pos = JVal.jstr "noun"))) = pre ++ m :: post ∧
      (∀ x ∈ pre, etyKeyLe x.ety m.ety = false) ∧
      (∀ x ∈ ([Cand.mk "A" (JVal.jstr "noun") (JVal.jnum 1),
        Cand.mk "B" (JVal.jstr "noun") (JVal.jnum 0),
        Cand.mk "C" (JVal.jstr "verb") (JVal.jnum 0)].filter
          (fun r => decide (r.pos = JVal.jstr "noun"))),
        etyKeyLe m.ety x.ety = true) ∧
      pick_best [Cand.mk "A" (JVal.jstr "noun") (JVal.jnum 1),
                 Cand.mk "B" (JVal.jstr "noun") (JVal.jnum 0),
                 Cand.mk "C" (JVal.jstr "verb") (JVal.jnum 0)]
          (JVal.jstr "noun") = some m.node_id) := by
  constructor
  · decide
  · refine C1_pick_best_pos_match _ "noun" (by decide) ?_ ?_
    · intro c hc
      rcases hc with _ | ⟨_, hc⟩
      · exact Or.inr ⟨1, rfl⟩
      rcases hc with _ | ⟨_, hc⟩
      · exact Or.inr ⟨0, rfl⟩
      rcases hc with _ | ⟨_, hc⟩
      · exact Or.inr ⟨0, rfl⟩
      cases hc
    · exact ⟨Cand.mk "A" (JVal.jstr "noun") (JVal.jnum 1),
        List.mem_cons_self _ _, rfl⟩

/-- C2 witness: the spec's fallback example
`[(A, verb, 2), (B, adj, null)]` with `current_pos = "noun"` (no POS
match) picks `B`, the null/0 candidate. -/
theorem C2_pick_best_fallback_witness :
    pick_best [Cand.mk "A" (JVal.jstr "verb") (JVal.jnum 2),
               Cand.mk "B" (JVal.jstr "adj") JVal.jnull]
        (JVal.jstr "noun") = some "B" :=
  ((C2_pick_best_fallback
      [Cand.mk "A" (JVal.jstr "verb") (JVal.jnum 2),
       Cand.mk "B" (JVal.jstr "adj") JVal.jnull]
      (JVal.jstr "noun") (by decide) (Or.inr (by decide))).1).trans (by decide)

/-! ### The node identity formula (C3) -/

theorem pyStr_or_default (o : Option JVal) (s : Option String)
    (h : asOptStr o = some s) :
    JVal.pyStr (pyOrV (o.getD JVal.jnull) (JVal.jstr "")) = s.getD "" := by
  cases o with
  | none =>
    simp only [asOptStr, Option.some.injEq] at h
    subst h
    rfl
  | some v =>
    cases v with
    | jnull =>
      simp only [asOptStr, Option.some.injEq] at h
      subst h
      rfl
    | jstr t =>
      simp only [asOptStr, Option.some.injEq] at h
      subst h
      simp only [Option.getD]
      by_cases ht : t = ""
      · subst ht
        rfl
      · unfold pyOrV
        rw [if_pos (by simp [JVal.truthy, ht])]
        rfl
    | jbool b => simp [asOptStr] at h
    | jnum n => simp [asOptStr] at h
    | jarr l => simp [asOptStr] at h
    | jobj l => simp [asOptStr] at h

theorem pyStr_ety_default (o : Option JVal) (n : Option Int)
    (h : asOptInt o = some n) :
    JVal.pyStr (match o.getD JVal.jnull with
                | JVal.jnull => JVal.jnum 0
                | v => v) = toString (n.getD 0) := by
  cases o with
  | none =>
    simp only [asOptInt, Option.some.injEq] at h
    subst h
    rfl
  | some v =>
    cases v with
    | jnull =>
      simp only [asOptInt, Option.some.injEq] at h
      subst h
      rfl
    | jnum m =>
      simp only [asOptInt, Option.some.injEq] at h
      subst h
      rfl
    | jbool b => simp [asOptInt] at h
    | jstr s => simp [asOptInt] at h
    | jarr l => simp [asOptInt] at h
    | jobj l => simp [asOptInt] at h

/-- C3: for every entry whose identity-relevant fields are strings or
absent/null (resp. an integer or absent/null for the etymology number),
`make_node_id` returns exactly
`lang_code ++ ":" ++ word ++ ":" ++ pos ++ ":" ++ etymology_number`,
each string defaulting to `""` when absent and the etymology number to
`0` when absent or null; and the function is pure, so computing it twice
on the same entry yields the same string. -/
theorem C3_make_node_id_formula (e : Obj) (lc w p : Option String) (n : Option Int)
    (hlc : asOptStr (jget e "lang_code") = some lc)
    (hw : asOptStr (jget e "word") = some w)
    (hp : asOptStr (jget e "pos") = some p)
    (hn : asOptInt (jget e "etymology_number") = some n) :
    make_node_id e =
      lc.getD "" ++ ":" ++ w.getD "" ++ ":" ++ p.getD "" ++ ":" ++
        toString (n.getD 0) ∧
    make_node_id e = make_node_id e := by
  refine ⟨?_, rfl⟩
  simp only [make_node_id, getv]
  rw [pyStr_or_default _ _ hlc, pyStr_or_default _ _ hw, pyStr_or_default _ _ hp,
    pyStr_ety_default _ _ hn]

/-- C3 witness: an entry with `lang_code = "en"`, `word = "foo"`, null
`pos` and no etymology number gets identity `en:foo::0`. -/
theorem C3_make_node_id_formula_witness :
    make_node_id [("lang_code", JVal.jstr "en"), ("word", JVal.jstr "foo"),
        ("pos", JVal.jnull)] = "en:foo::0" ∧
    make_node_id [("lang_code", JVal.jstr "en"), ("word", JVal.jstr "foo"),
        ("pos", JVal.jnull)] =
      make_node_id [("lang_code", JVal.jstr "en"), ("word", JVal.jstr "foo"),
        ("pos", JVal.jnull)] :=
  C3_make_node_id_formula _ (some "en") (some "foo") none none rfl rfl rfl rfl

/-- C6: `resolve_target_node` returns `none` exactly when the queried
`lang_code` or `word` is falsy (empty or missing) or no persisted row
matches the pair; and it is a pure read — the model consumes the table
and produces only an optional id, identically on repeated calls. -/
theorem C6_resolve_unresolved_iff (tbl : List Row) (lc w cp : JVal) :
    (resolve_target_node tbl lc w cp = none ↔
      JVal.truthy lc = false ∨ JVal.truthy w = false ∨
      tbl.filter (fun r => decide (r.lang_code = lc ∧ r.word = w)) = []) ∧
    resolve_target_node tbl lc w cp = resolve_target_node tbl lc w cp := by
  refine ⟨?_, rfl⟩
  unfold resolve_target_node
  by_cases h1 : ¬ JVal.truthy lc ∨ ¬ JVal.truthy w
  · rw [if_pos h1]
    constructor
    · intro _
      rcases h1 with h | h
      · exact Or.inl (by simpa using h)
      · exact Or.inr (Or.inl (by simpa using h))
    · intro _
      rfl
  · rw [if_neg h1]
    push_neg at h1
    constructor
    · intro hres
      refine Or.inr (Or.inr ?_)
      by_contra hfne
      have hrne : (tbl.filter (fun r => decide (r.lang_code = lc ∧ r.word = w))).map
          (fun r => Cand.mk r.node_id r.pos r.etymology_number) ≠ [] := by
        simpa [List.map_eq_nil_iff] using hfne
      rw [if_neg hrne] at hres
      have hs := pick_best_isSome _ cp hrne
      rw [hres] at hs
      simp at hs
    · intro hrhs
      rcases hrhs with h | h | h
      · rw [h1.1] at h
        cases h
      · rw [h1.2] at h
        cases h
      · rw [if_pos (by rw [h]; rfl)]

/-- C4: the edge pass is driven by exactly the five stated relation
specs (field, relation kind, POS-matching flag, language-inheritance
flag), and under the descendants spec — which does not inherit the
citing entry's language — a reference whose own language is falsy
(absent) produces no edge. -/
theorem C4_relation_specs :
    RELATION_SPECS = [("alt_of", "alt_of", true, true),
      ("form_of", "form_of", true, true),
      ("redirects", "redirect", true, true),
      ("derived", "derived", false, true),
      ("descendants", "descendant", false, false)] ∧
    (∀ (tbl : List Row) (src : String) (cp el : JVal) (rel : RelRef),
      JVal.truthy rel.lang_code = false →
      edgeForRef tbl src cp el ("descendants", "descendant", false, false) rel =
        none) := by
  refine ⟨rfl, ?_⟩
  intro tbl src cp el rel h
  by_cases hw : JVal.truthy rel.word = true
  · simp [edgeForRef, hw, h]
  · simp [edgeForRef, hw]

/-- C4 witness: a descendant reference to `foo` with no language of its
own yields no edge. -/
theorem C4_relation_specs_witness :
    edgeForRef [] "src" JVal.jnull JVal.jnull
      ("descendants", "descendant", false, false)
      (RelRef.mk (JVal.jstr "foo") JVal.jnull) = none :=
  (C4_relation_specs).2 [] "src" JVal.jnull JVal.jnull
    (RelRef.mk (JVal.jstr "foo") JVal.jnull) rfl

/-- C7: `INSERT OR REPLACE` keyed on the node identity replaces the
previous node entirely — after an upsert of `r`, the rows carrying
`r.node_id` are exactly `[r]`, with none of the old attributes
surviving — and any pass-1 run that completes leaves at most one node
per identity string. -/
theorem C7_upsert_replace_unique :
    (∀ (tbl : List Row) (r : Row),
      (upsertRow tbl r).filter (fun x => decide (x.node_id = r.node_id)) = [r]) ∧
    (∀ (lines : List Line) (tbl : List Row) (n : Nat),
      insert_entries_from_jsonl lines = Except.ok (tbl, n) →
      tbl.Pairwise (fun a b => a.node_id ≠ b.node_id)) := by
  constructor
  · intro tbl r
    unfold upsertRow
    rw [List.filter_append]
    have h1 : (tbl.filter (fun x => decide (x.node_id ≠ r.node_id))).filter
        (fun x => decide (x.node_id = r.node_id)) = [] := by
      rw [List.filter_eq_nil_iff]
      intro a ha
      have hne := (List.mem_filter.mp ha).2
      simp only [decide_eq_true_eq] at hne ⊢
      simpa using hne
    rw [h1]
    simp [List.filter]
  · have hstep : ∀ (st : List Row × Nat) (l : Line) (st' : List Row × Nat),
        step1 st l = Except.ok st' →
        st.1.Pairwise (fun a b => a.node_id ≠ b.node_id) →
        st'.1.Pairwise (fun a b => a.node_id ≠ b.node_id) := by
      intro st l st' hs hinv
      cases l with
      | blank => cases hs; exact hinv
      | malformed => cases hs; exact hinv
      | record e =>
        simp only [step1] at hs
        split at hs
        · cases hs
          exact hinv
        · split at hs
          · cases hs
          · next r hr =>
            cases hs
            unfold upsertRow
            rw [List.pairwise_append]
            refine ⟨hinv.filter _, List.pairwise_singleton _ _, ?_⟩
            intro a ha b hb
            rcases List.mem_singleton.mp hb with rfl
            have := (List.mem_filter.mp ha).2
            simpa using this
    have hrun : ∀ (ls : List Line) (st : List Row × Nat) (tbl : List Row) (n : Nat),
        st.1.Pairwise (fun a b => a.node_id ≠ b.node_id) →
        runLines step1 st ls = Except.ok (tbl, n) →
        tbl.Pairwise (fun a b => a.node_id ≠ b.node_id) := by
      intro ls
      induction ls with
      | nil =>
        intro st tbl n hinv h
        cases h
        exact hinv
      | cons l ls ih =>
        intro st tbl n hinv h
        simp only [runLines] at h
        cases hs : step1 st l with
        | error msg =>
          rw [hs] at h
          cases h
        | ok st' =>
          rw [hs] at h
          exact ih st' tbl n (hstep st l st' hs hinv) h
    intro lines tbl n h
    exact hrun lines ([], 0) tbl n (by simp) h

/-- C7 witness: re-ingesting the same identity twice leaves exactly one
node for it, and a single upsert stores exactly the new row. -/
theorem C7_upsert_replace_unique_witness :
    (upsertRow [] exRowFoo).filter
      (fun x => decide (x.node_id = exRowFoo.node_id)) = [exRowFoo] ∧
    [exRowFoo].Pairwise (fun a b => a.node_id ≠ b.node_id) :=
  ⟨(C7_upsert_replace_unique).1 [] exRowFoo,
   (C7_upsert_replace_unique).2 [Line.record exEntryFoo, Line.record exEntryFoo]
     [exRowFoo] 2 (by rfl)⟩

/-! ### Edge endpoints (C10) -/

theorem resolve_mem_row (tbl : List Row) (lc w cp : JVal) (id : String)
    (h : resolve_target_node tbl lc w cp = some id) :
    ∃ r ∈ tbl, r.node_id = id ∧ r.lang_code = lc ∧ r.word = w := by
  simp only [resolve_target_node] at h
  by_cases h1 : ¬ JVal.truthy lc = true ∨ ¬ JVal.truthy w = true
  · rw [if_pos h1] at h
    cases h
  · rw [if_neg h1] at h
    by_cases h2 : (tbl.filter (fun r => decide (r.lang_code = lc ∧ r.word = w))).map
        (fun r => Cand.mk r.node_id r.pos r.etymology_number) = []
    · rw [if_pos h2] at h
      cases h
    · rw [if_neg h2] at h
      obtain ⟨c, hcmem, hcid⟩ := pick_best_mem _ _ _ h
      obtain ⟨r, hrmem, hrc⟩ := List.mem_map.mp hcmem
      have hrf := List.mem_filter.mp hrmem
      have hprops := of_decide_eq_true hrf.2
      refine ⟨r, hrf.1, ?_, hprops.1, hprops.2⟩
      have hni : r.node_id = c.node_id := congrArg Cand.node_id hrc
      rw [hni, hcid]

theorem edgeForRef_shape (tbl : List Row) (src : String) (cp el : JVal)
    (spec : Spec) (rel : RelRef) (ed : Edge)
    (h : edgeForRef tbl src cp el spec rel = some ed) :
    ed.src_id = src ∧ ∃ r ∈ tbl, r.node_id = ed.dst_id := by
  simp only [edgeForRef] at h
  by_cases hw : ¬ JVal.truthy rel.word = true
  · rw [if_pos hw] at h
    cases h
  · rw [if_neg hw] at h
    by_cases htl : ¬ JVal.truthy
        (if ¬ JVal.truthy rel.lang_code = true ∧ spec.2.2.2 = true then el
         else rel.lang_code) = true
    · rw [if_pos htl] at h
      cases h
    · rw [if_neg htl] at h
      cases hres : resolve_target_node tbl
          (if ¬ JVal.truthy rel.lang_code = true ∧ spec.2.2.2 = true then el
           else rel.lang_code)
          rel.word (if spec.2.2.1 = true then cp else JVal.jnull) with
      | none =>
        rw [hres] at h
        cases h
      | some dst =>
        rw [hres] at h
        dsimp only [] at h
        by_cases hdst : dst = ""
        · rw [if_pos hdst] at h
          cases h
        · rw [if_neg hdst] at h
          cases h
          obtain ⟨r, hrmem, hrid, -, -⟩ := resolve_mem_row _ _ _ _ _ hres
          exact ⟨rfl, r, hrmem, hrid⟩

theorem edgesForSpecs_mem (tbl : List Row) (e : Obj) (src : String) (cp el : JVal) :
    ∀ (specs : List Spec) (es : List Edge),
      edgesForSpecs tbl e src cp el specs = Except.ok es →
      ∀ ed ∈ es, ∃ spec rel, edgeForRef tbl src cp el spec rel = some ed
  | [], es, h, ed, hed => by
    cases h
    cases hed
  | spec :: rest, es, h, ed, hed => by
    simp only [edgesForSpecs] at h
    split at h
    · cases h
    · next rels hrels =>
      split at h
      · cases h
      · next es' hrest =>
        cases h
        rcases List.mem_append.mp hed with h1 | h2
        · obtain ⟨rel, -, hrel⟩ := List.mem_filterMap.mp h1
          exact ⟨spec, rel, hrel⟩
        · exact edgesForSpecs_mem tbl e src cp el rest es' hrest ed h2

theorem runLines_inv {σ : Type} (step : σ → Line → Except String σ) (P : σ → Prop)
    (hstep : ∀ st l st', step st l = Except.ok st' → P st → P st') :
    ∀ (ls : List Line) (st st' : σ), P st →
      runLines step st ls = Except.ok st' → P st'
  | [], st, st', h, hr => by
    cases hr
    exact h
  | l :: ls, st, st', h, hr => by
    simp only [runLines] at hr
    cases hs : step st l with
    | error msg =>
      rw [hs] at hr
      cases hr
    | ok st1 =>
      rw [hs] at hr
      exact runLines_inv step P hstep ls st1 st' (hstep st l st1 hs h) hr

theorem step2_dst (tbl : List Row) (st st' : List Edge × Nat) (l : Line)
    (hs : step2 tbl st l = Except.ok st')
    (hinv : ∀ ed ∈ st.1, ∃ r ∈ tbl, r.node_id = ed.dst_id) :
    ∀ ed ∈ st'.1, ∃ r ∈ tbl, r.node_id = ed.dst_id := by
  cases l with
  | blank =>
    cases hs
    exact hinv
  | malformed =>
    cases hs
    exact hinv
  | record e =>
    simp only [step2] at hs
    split at hs
    · cases hs
      exact hinv
    · split at hs
      · cases hs
      · next es' hes =>
        cases hs
        intro ed hed
        rcases List.mem_append.mp hed with h1 | h2
        · exact hinv ed h1
        · obtain ⟨spec, rel, hrel⟩ := edgesForSpecs_mem tbl e (make_node_id e)
            (getv e "pos") (getv e "lang_code") RELATION_SPECS es' hes ed h2
          exact (edgeForRef_shape tbl (make_node_id e) (getv e "pos")
            (getv e "lang_code") spec rel ed hrel).2

theorem except_bind_ok {α β : Type} (x : Except String α) (f : α → Except String β)
    (b : β) (h : x >>= f = Except.ok b) : ∃ a, x = Except.ok a ∧ f a = Except.ok b := by
  cases x with
  | error e =>
    simp only [bind, Except.bind] at h
    cases h
  | ok a => exact ⟨a, rfl, h⟩

/-- A successful insert stores the normalized record's own `node_id`. -/
theorem rowOfNorm_node_id (norm : Obj) (r : Row)
    (h : rowOfNorm norm = Except.ok r) :
    jget norm "node_id" = some (JVal.jstr r.node_id) := by
  simp only [rowOfNorm] at h
  cases hnb : jget norm "node_id" with
  | none =>
    rw [hnb] at h
    simp [bind, Except.bind] at h
  | some v =>
    rw [hnb] at h
    cases v with
    | jnull => simp [bind, Except.bind] at h
    | jbool b => simp [bind, Except.bind] at h
    | jnum n2 => simp [bind, Except.bind] at h
    | jarr l => simp [bind, Except.bind] at h
    | jobj o => simp [bind, Except.bind] at h
    | jstr s =>
      obtain ⟨nid, h0, h⟩ := except_bind_ok _ _ _ h
      simp only [Except.ok.injEq] at h0
      obtain ⟨word, -, h⟩ := except_bind_ok _ _ _ h
      obtain ⟨lang, -, h⟩ := except_bind_ok _ _ _ h
      obtain ⟨lang_code, -, h⟩ := except_bind_ok _ _ _ h
      obtain ⟨pos, -, h⟩ := except_bind_ok _ _ _ h
      obtain ⟨etymology_number, -, h⟩ := except_bind_ok _ _ _ h
      obtain ⟨etymology_text, -, h⟩ := except_bind_ok _ _ _ h
      obtain ⟨etymology_templates, -, h⟩ := except_bind_ok _ _ _ h
      obtain ⟨derived, -, h⟩ := except_bind_ok _ _ _ h
      obtain ⟨descendants, -, h⟩ := except_bind_ok _ _ _ h
      obtain ⟨alt_of, -, h⟩ := except_bind_ok _ _ _ h
      obtain ⟨form_of, -, h⟩ := except_bind_ok _ _ _ h
      obtain ⟨categories, -, h⟩ := except_bind_ok _ _ _ h
      obtain ⟨redirects, -, h⟩ := except_bind_ok _ _ _ h
      obtain ⟨literal_meaning, -, h⟩ := except_bind_ok _ _ _ h
      obtain ⟨wikidata, -, h⟩ := except_bind_ok _ _ _ h
      split at h
      · cases h
      · split at h
        · cases h
        · cases h
          rw [h0]

/-- An upsert never removes a node identity: it deletes only rows that
carry the identity it re-inserts. -/
theorem upsert_hasNode (tbl : List Row) (r : Row) (id : String)
    (h : ∃ x ∈ tbl, x.node_id = id) : ∃ x ∈ upsertRow tbl r, x.node_id = id := by
  obtain ⟨x, hx, hxid⟩ := h
  by_cases heq : x.node_id = r.node_id
  · refine ⟨r, List.mem_append_right _ (List.mem_cons_self r []), ?_⟩
    rw [← heq]
    exact hxid
  · refine ⟨x, List.mem_append_left _ ?_, hxid⟩
    exact List.mem_filter.mpr ⟨hx, by simpa using heq⟩

theorem step1_hasNode (id : String) (st st' : List Row × Nat) (l : Line)
    (hs : step1 st l = Except.ok st')
    (h : ∃ x ∈ st.1, x.node_id = id) : ∃ x ∈ st'.1, x.node_id = id := by
  cases l with
  | blank =>
    cases hs
    exact h
  | malformed =>
    cases hs
    exact h
  | record e =>
    simp only [step1] at hs
    split at hs
    · cases hs
      exact h
    · split at hs
      · cases hs
      · next r hr =>
        cases hs
        exact upsert_hasNode st.1 r id h

/-- Pass-1 coverage: a completed run leaves a node carrying the identity
of every record it ingested (records with both `word` and `lang_code`
keys present). -/
theorem insert_entries_covers :
    ∀ (ls : List Line) (st : List Row × Nat) (tbl : List Row) (n : Nat),
      runLines step1 st ls = Except.ok (tbl, n) →
      ∀ e : Obj, Line.record e ∈ ls →
      ¬ (jget e "word" = none ∨ jget e "lang_code" = none) →
      ∃ r ∈ tbl, r.node_id = make_node_id e
  | [], st, tbl, n, h, e, he, hk => by cases he
  | l :: ls, st, tbl, n, h, e, he, hk => by
    simp only [runLines] at h
    cases hs : step1 st l with
    | error msg =>
      rw [hs] at h
      cases h
    | ok st1 =>
      rw [hs] at h
      rcases he with _ | ⟨_, he'⟩
      · simp only [step1] at hs
        rw [if_neg hk] at hs
        cases hrn : rowOfNorm (normalize_entry e) with
        | error msg =>
          rw [hrn] at hs
          cases hs
        | ok r =>
          rw [hrn] at hs
          cases hs
          have hid : r.node_id = make_node_id e := by
            have h1 := rowOfNorm_node_id _ _ hrn
            have h2 : jget (normalize_entry e) "node_id" =
                some (JVal.jstr (make_node_id e)) := rfl
            rw [h1] at h2
            exact JVal.jstr.inj (Option.some.inj h2)
          exact runLines_inv step1 (fun s => ∃ x ∈ s.1, x.node_id = make_node_id e)
            (fun s l' s' hst hp => step1_hasNode (make_node_id e) s s' l' hst hp)
            ls (upsertRow st.1 r, st.2 + 1) (tbl, n)
            ⟨r, List.mem_append_right _ (List.mem_cons_self r []), hid⟩ h
      · exact insert_entries_covers ls st1 tbl n h e he' hk

/-- Pass-2 provenance: every edge of a completed run either was already
in the starting state or has the identity of some ingestible record of
the corpus as its source. -/
theorem insert_edges_src (tbl : List Row) :
    ∀ (ls : List Line) (st : List Edge × Nat) (es : List Edge) (m : Nat),
      runLines (step2 tbl) st ls = Except.ok (es, m) →
      ∀ ed ∈ es, ed ∈ st.1 ∨
        ∃ e : Obj, Line.record e ∈ ls ∧
          ¬ (jget e "word" = none ∨ jget e "lang_code" = none) ∧
          ed.src_id = make_node_id e
  | [], st, es, m, h, ed, hed => by
    cases h
    exact Or.inl hed
  | l :: ls, st, es, m, h, ed, hed => by
    simp only [runLines] at h
    cases hs : step2 tbl st l with
    | error msg =>
      rw [hs] at h
      cases h
    | ok st1 =>
      rw [hs] at h
      rcases insert_edges_src tbl ls st1 es m h ed hed with hin | ⟨e, he, hk, hsrc⟩
      · cases l with
        | blank =>
          cases hs
          exact Or.inl hin
        | malformed =>
          cases hs
          exact Or.inl hin
        | record e =>
          simp only [step2] at hs
          split at hs
          · cases hs
            exact Or.inl hin
          · next hkeys =>
            split at hs
            · cases hs
            · next es' hes =>
              cases hs
              rcases List.mem_append.mp hin with h1 | h2
              · exact Or.inl h1
              · refine Or.inr ⟨e, List.mem_cons_self _ _, hkeys, ?_⟩
                obtain ⟨spec, rel, hrel⟩ := edgesForSpecs_mem tbl e (make_node_id e)
                  (getv e "pos") (getv e "lang_code") RELATION_SPECS es' hes ed h2
                exact (edgeForRef_shape tbl (make_node_id e) (getv e "pos")
                  (getv e "lang_code") spec rel ed hrel).1
      · exact Or.inr ⟨e, List.mem_cons_of_mem l he, hk, hsrc⟩

/-- C10: edge endpoints refer to persisted nodes.  Whenever the resolver
returns an id, some row of the table carries that id with exactly the
queried `lang_code` and `word`; every edge emitted for an entry has the
entry's own identity as source and a destination id that is the node id
of some row of the table; and when the same corpus drives both passes —
pass 2 reading exactly the table pass 1 produced — both endpoints of
every inserted edge are node ids of rows of that table: no edge refers
to a node that does not exist after phase 1. -/
theorem C10_edges_endpoints :
    (∀ (tbl : List Row) (lc w cp : JVal) (id : String),
      resolve_target_node tbl lc w cp = some id →
      ∃ r ∈ tbl, r.node_id = id ∧ r.lang_code = lc ∧ r.word = w) ∧
    (∀ (tbl : List Row) (e : Obj) (es : List Edge),
      edgesForEntry tbl e = Except.ok es →
      ∀ ed ∈ es, ed.src_id = make_node_id e ∧ ∃ r ∈ tbl, r.node_id = ed.dst_id) ∧
    (∀ (tbl : List Row) (lines : List Line) (es : List Edge) (n : Nat),
      insert_edges_from_jsonl tbl lines = Except.ok (es, n) →
      ∀ ed ∈ es, ∃ r ∈ tbl, r.node_id = ed.dst_id) ∧
    (∀ (lines : List Line) (tbl : List Row) (n : Nat) (es : List Edge) (m : Nat),
      insert_entries_from_jsonl lines = Except.ok (tbl, n) →
      insert_edges_from_jsonl tbl lines = Except.ok (es, m) →
      ∀ ed ∈ es, (∃ r ∈ tbl, r.node_id = ed.src_id) ∧
        (∃ r ∈ tbl, r.node_id = ed.dst_id)) := by
  refine ⟨fun tbl lc w cp id h => resolve_mem_row tbl lc w cp id h, ?_, ?_, ?_⟩
  · intro tbl e es h ed hed
    obtain ⟨spec, rel, hrel⟩ := edgesForSpecs_mem tbl e (make_node_id e)
      (getv e "pos") (getv e "lang_code") RELATION_SPECS es h ed hed
    exact edgeForRef_shape tbl (make_node_id e) (getv e "pos") (getv e "lang_code")
      spec rel ed hrel
  · intro tbl lines es n h
    exact runLines_inv (step2 tbl)
      (fun st => ∀ ed ∈ st.1, ∃ r ∈ tbl, r.node_id = ed.dst_id)
      (fun st l st' hs hinv => step2_dst tbl st st' l hs hinv)
      lines ([], 0) (es, n) (by simp) h
  · intro lines tbl n es m h1 h2 ed hed
    constructor
    · rcases insert_edges_src tbl lines ([], 0) es m h2 ed hed with
        hin | ⟨e, he, hk, hsrc⟩
      · cases hin
      · rw [hsrc]
        exact insert_entries_covers lines ([], 0) tbl n h1 e he hk
    · exact runLines_inv (step2 tbl)
        (fun st => ∀ ed2 ∈ st.1, ∃ r ∈ tbl, r.node_id = ed2.dst_id)
        (fun st l st' hs hinv => step2_dst tbl st st' l hs hinv)
        lines ([], 0) (es, m) (by simp) h2 ed hed

/-- C10 witness: the spec's end-to-end example, run through both passes
over the same two-line corpus.  Pass 1 yields the node table
`[exRowFoo, exRowBar]`, pass 2 over that same table yields exactly one
`derived` edge, and both of its endpoints — the citing entry's identity
`en:bar:verb:0` and the resolved `en:foo:noun:0` — are node ids of rows
of that table. -/
theorem C10_edges_endpoints_witness :
    (∃ r ∈ [exRowFoo, exRowBar], r.node_id = "en:foo:noun:0" ∧
      r.lang_code = JVal.jstr "en" ∧ r.word = JVal.jstr "foo") ∧
    ((Edge.mk "en:bar:verb:0" "en:foo:noun:0" "derived").src_id =
      make_node_id exEntryBar ∧
     ∃ r ∈ [exRowFoo, exRowBar],
       r.node_id = (Edge.mk "en:bar:verb:0" "en:foo:noun:0" "derived").dst_id) ∧
    ((∃ r ∈ [exRowFoo, exRowBar],
       r.node_id = (Edge.mk "en:bar:verb:0" "en:foo:noun:0" "derived").src_id) ∧
     (∃ r ∈ [exRowFoo, exRowBar],
       r.node_id = (Edge.mk "en:bar:verb:0" "en:foo:noun:0" "derived").dst_id)) :=
  ⟨(C10_edges_endpoints).1 [exRowFoo, exRowBar] (JVal.jstr "en") (JVal.jstr "foo")
      JVal.jnull "en:foo:noun:0" (by rfl),
   (C10_edges_endpoints).2.1 [exRowFoo, exRowBar] exEntryBar
      [Edge.mk "en:bar:verb:0" "en:foo:noun:0" "derived"] (by rfl)
      (Edge.mk "en:bar:verb:0" "en:foo:noun:0" "derived")
      (List.mem_cons_self _ _),
   (C10_edges_endpoints).2.2.2 [Line.record exEntryFoo, Line.record exEntryBar]
      [exRowFoo, exRowBar] 2
      [Edge.mk "en:bar:verb:0" "en:foo:noun:0" "derived"] 2 (by rfl) (by rfl)
      (Edge.mk "en:bar:verb:0" "en:foo:noun:0" "derived")
      (List.mem_cons_self _ _)⟩

/-! ### Reference extraction (C5) -/

theorem asOptStr_shape (o : Option JVal) (h : (asOptStr o).isSome = true) :
    o = none ∨ o = some JVal.jnull ∨ ∃ s, o = some (JVal.jstr s) := by
  cases o with
  | none => exact Or.inl rfl
  | some v =>
    cases v with
    | jnull => exact Or.inr (Or.inl rfl)
    | jstr s => exact Or.inr (Or.inr ⟨s, rfl⟩)
    | jbool b => simp [asOptStr] at h
    | jnum n => simp [asOptStr] at h
    | jarr l => simp [asOptStr] at h
    | jobj l => simp [asOptStr] at h

theorem relRefOfItem_wellTyped (it : JVal) (h : wellTypedItem it) :
    relRefOfItem it = extract_spec_item it := by
  cases it with
  | jnull => rfl
  | jbool b => rfl
  | jnum n => rfl
  | jstr s => rfl
  | jarr l => rfl
  | jobj fields =>
    obtain ⟨hw, hlc1, hlc2, hlg1, hlg2⟩ := h
    rcases asOptStr_shape _ hw with hw' | hw' | ⟨s, hw'⟩
    · simp [relRefOfItem, extract_spec_item, getv, hw', JVal.truthy]
    · simp [relRefOfItem, extract_spec_item, getv, hw', JVal.truthy]
    · by_cases hs : s = ""
      · subst hs
        simp [relRefOfItem, extract_spec_item, getv, hw', JVal.truthy]
      · have hlang : pyOrV (getv fields "lang_code") (getv fields "lang") =
            (match jget fields "lang_code" with
             | some (JVal.jstr c) => JVal.jstr c
             | _ =>
               match jget fields "lang" with
               | some (JVal.jstr lg) => JVal.jstr lg
               | _ => JVal.jnull) := by
          rcases asOptStr_shape _ hlc1 with hc | hc | ⟨c, hc⟩
          · rcases asOptStr_shape _ hlg1 with hg | hg | ⟨g, hg⟩
            · simp [pyOrV, getv, hc, hg, JVal.truthy]
            · simp [pyOrV, getv, hc, hg, JVal.truthy]
            · simp [pyOrV, getv, hc, hg, JVal.truthy]
          · rcases asOptStr_shape _ hlg1 with hg | hg | ⟨g, hg⟩
            · simp [pyOrV, getv, hc, hg, JVal.truthy]
            · simp [pyOrV, getv, hc, hg, JVal.truthy]
            · simp [pyOrV, getv, hc, hg, JVal.truthy]
          · have hcne : c ≠ "" := by
              intro hc0
              rw [hc0] at hc
              exact hlc2 (by rw [hc]; rfl)
            simp [pyOrV, getv, hc, JVal.truthy, hcne]
        simp only [getv] at hlang
        simp [relRefOfItem, extract_spec_item, getv, hw', JVal.truthy, hs, hlang]

/-- C5: the reference extractor agrees with §4.3 of the specification on
every well-typed field: an absent field yields the empty sequence, and a
list-valued field yields, in source order, one reference per item — a
structured item with a non-empty word contributing its word and its own
language code (falling back to its language name, otherwise null), a
structured item with an empty or missing word being skipped, and a bare
item contributing its stringified form with no language; the extractor
is a pure function, so it can be re-derived from the same entry. -/
theorem C5_iter_relation_items (entry : Obj) (field : String) :
    (jget entry field = none → iter_relation_items entry field = some []) ∧
    (∀ items, jget entry field = some (JVal.jarr items) →
      (∀ it ∈ items, wellTypedItem it) →
      iter_relation_items entry field = some (items.filterMap extract_spec_item)) ∧
    iter_relation_items entry field = iter_relation_items entry field := by
  refine ⟨?_, ?_, rfl⟩
  · intro h
    simp [iter_relation_items, getv, h, pyOrV, JVal.truthy, pyIterElems]
  · intro items h hwt
    have hval : pyOrV (getv entry field) (JVal.jarr []) = JVal.jarr items := by
      cases items with
      | nil => simp [getv, h, pyOrV, JVal.truthy]
      | cons x xs => simp [getv, h, pyOrV, JVal.truthy]
    simp only [iter_relation_items, hval, pyIterElems]
    congr 1
    exact List.filterMap_congr (fun it hit => relRefOfItem_wellTyped it (hwt it hit))

/-- C5 witness: the spec's example — one bare string `"foo"` and one
structured item `{word: "bar", lang_code: "en"}` — yields exactly
`[(foo, null), (bar, en)]` in that order. -/
theorem C5_iter_relation_items_witness :
    iter_relation_items
      [("derived", JVal.jarr [JVal.jstr "foo",
          JVal.jobj [("word", JVal.jstr "bar"), ("lang_code", JVal.jstr "en")]])]
      "derived" =
    some [RelRef.mk (JVal.jstr "foo") JVal.jnull,
          RelRef.mk (JVal.jstr "bar") (JVal.jstr "en")] := by
  have h := ((C5_iter_relation_items
      [("derived", JVal.jarr [JVal.jstr "foo",
          JVal.jobj [("word", JVal.jstr "bar"), ("lang_code", JVal.jstr "en")]])]
      "derived").2.1)
    [JVal.jstr "foo", JVal.jobj [("word", JVal.jstr "bar"), ("lang_code", JVal.jstr "en")]]
    rfl ?wt
  · exact h.trans (by rfl)
  case wt =>
    intro it hit
    rcases hit with _ | ⟨_, hit⟩
    · exact trivial
    rcases hit with _ | ⟨_, hit⟩
    · exact ⟨rfl, rfl, by decide, rfl, by decide⟩
    cases hit

/-- C9: `normalize_entry` emits exactly the allow-listed attributes plus
the computed node identity (everything else is discarded); each of the
seven JSON fields is stored as the serialized blob of its value when the
value is present and as null when it is missing or null; every other
attribute passes through unchanged, with a missing key surfacing as
null. -/
theorem C9_normalize_entry_shape (e : Obj) :
    ((normalize_entry e).map Prod.fst = TARGET_KEYS ++ ["node_id"]) ∧
    (∀ k, k ∈ JSON_FIELDS →
      jget (normalize_entry e) k =
        some (if getv e k = JVal.jnull then JVal.jnull
              else JVal.jstr (JVal.dumps (getv e k)))) ∧
    (∀ k, k ∈ TARGET_KEYS → k ∉ JSON_FIELDS →
      jget (normalize_entry e) k = some (getv e k)) ∧
    jget (normalize_entry e) "node_id" = some (JVal.jstr (make_node_id e)) := by
  refine ⟨rfl, ?_, ?_, rfl⟩
  · intro k hk
    simp only [JSON_FIELDS, List.mem_cons, List.not_mem_nil, or_false] at hk
    rcases hk with rfl | rfl | rfl | rfl | rfl | rfl | rfl <;> rfl
  · intro k hk hnk
    simp only [TARGET_KEYS, List.mem_cons, List.not_mem_nil, or_false] at hk
    rcases hk with rfl | rfl | rfl | rfl | rfl | rfl | rfl | rfl | rfl | rfl |
      rfl | rfl | rfl | rfl | rfl <;>
      first
        | rfl
        | exact absurd (by decide) hnk

/-- C9 witness: normalizing the example entry keeps the allow-listed
keys plus `node_id`, serializes its `derived` list to a blob, passes
`word` through, and carries the computed identity. -/
theorem C9_normalize_entry_shape_witness :
    (normalize_entry exEntryBar).map Prod.fst = TARGET_KEYS ++ ["node_id"] ∧
    jget (normalize_entry exEntryBar) "derived" = some (JVal.jstr "[\"foo\"]") ∧
    jget (normalize_entry exEntryBar) "word" = some (JVal.jstr "bar") ∧
    jget (normalize_entry exEntryBar) "node_id" =
      some (JVal.jstr "en:bar:verb:0") := by
  refine ⟨(C9_normalize_entry_shape exEntryBar).1, ?_, ?_, ?_⟩
  · exact ((C9_normalize_entry_shape exEntryBar).2.1 "derived" (by decide)).trans
      (by rfl)
  · exact ((C9_normalize_entry_shape exEntryBar).2.2.1 "word" (by decide)
      (by decide)).trans (by rfl)
  · exact ((C9_normalize_entry_shape exEntryBar).2.2.2).trans (by rfl)

/-! ### Skip rules and the fatal line (C8) -/

/-- C8 counterexample: the input line `{"word": null, "lang_code": "en"}`
parses and carries both keys, yet aborts pass 1 through the store's
NOT NULL constraint on `word` — refuting the claim that no input line is
fatal to the run. -/
theorem C8_fatal_line_counterexample :
    insert_entries_from_jsonl
      [Line.record [("word", JVal.jnull), ("lang_code", JVal.jstr "en")]] =
    Except.error "IntegrityError: NOT NULL constraint failed: entries.word" := by
  rfl

/-- C8 (amended): in both passes, a blank or unparseable corpus line is
skipped with no state or count change and processing continues, and a
parsed record lacking the `word` or `lang_code` key is skipped silently;
lines of these kinds never abort the stream (a parsed line whose `word`
or `lang_code` value is null, by contrast, is fatal through the store's
NOT NULL constraints). -/
theorem C8_skip_rules :
    (∀ st : List Row × Nat, step1 st Line.blank = Except.ok st ∧
      step1 st Line.malformed = Except.ok st) ∧
    (∀ (st : List Row × Nat) (e : Obj),
      jget e "word" = none ∨ jget e "lang_code" = none →
      step1 st (Line.record e) = Except.ok st) ∧
    (∀ (tbl : List Row) (st : List Edge × Nat),
      step2 tbl st Line.blank = Except.ok st ∧
      step2 tbl st Line.malformed = Except.ok st) ∧
    (∀ (tbl : List Row) (st : List Edge × Nat) (e : Obj),
      jget e "word" = none ∨ jget e "lang_code" = none →
      step2 tbl st (Line.record e) = Except.ok st) := by
  refine ⟨fun st => ⟨rfl, rfl⟩, ?_, fun tbl st => ⟨rfl, rfl⟩, ?_⟩
  · intro st e h
    simp only [step1]
    rw [if_pos h]
  · intro tbl st e h
    simp only [step2]
    rw [if_pos h]

/-- C8 witness: a record without the `word` key and a malformed line are
both skipped by pass 1 with the state unchanged. -/
theorem C8_skip_rules_witness :
    step1 ([], 0) (Line.record [("foo", JVal.jnum 1)]) = Except.ok ([], 0) ∧
    step1 ([], 0) Line.malformed = Except.ok ([], 0) :=
  ⟨(C8_skip_rules).2.1 ([], 0) [("foo", JVal.jnum 1)] (Or.inl rfl),
   ((C8_skip_rules).1 ([], 0)).2⟩

end BuildDb
